import Mathlib

/-!
Verification of the low-level memory-interpretation engine of the
volatility Linux plugin support code (`volatility/plugins/linux/common.py`)
and the process-tree root finder (`branches/scudette/.../pstree.py`).

Each Python function relevant to the claims is shallowly embedded as an
executable Lean definition.  External collaborators (the address space,
the typed-object layer, the symbol table) are passed in as explicit
function parameters; machine integers are modelled as `Nat`/`Int` with
Python's arithmetic semantics (floor division via `Int.fdiv`).
-/

/- ### online_cpus / walk_per_cpu_var (common.py lines 99-140)

`online_cpus` reads a CPU bitmap word and returns the list of set bit
positions among 0..7.  `walk_per_cpu_var` then iterates `i` over
`range(max_cpu)` where `max_cpu = cpus[-1] + 1`, yielding at every such
`i` the pair `(i, TypedObject at cpu_var + per_offsets[i])`.  The typed
object is represented by the address it is bound to.  Python raises
IndexError on `cpus[-1]` when the list is empty; that failure is the
`none` case. -/

def online_cpus (bmap : Nat) : List Nat :=
  (List.range 8).filter (fun i => bmap &&& (1 <<< i) != 0)

def walk_per_cpu_var (bmap : Nat) (perOffsets : Nat → Nat) (cpuVarAddr : Nat) :
    Option (List (Nat × Nat)) :=
  match (online_cpus bmap).getLast? with
  | none => none
  | some last =>
    let max_cpu := last + 1
    some ((List.range max_cpu).map (fun i => (i, cpuVarAddr + perOffsets i)))

/- ### phys_addr_of_page (common.py lines 283-305)

The profile state is reduced to the facts the function consults: whether
the `mem_map` symbol resolves (and the pointer stored there), whether
`mem_section` resolves, and the size of the `page` struct.  The source
computes `(page - mem_map_ptr) / get_obj_size("page")` with Python 2
floor division, then shifts left by 12. -/

structure MMConfig where
  mem_map_resolved : Bool
  mem_map_ptr : Int
  mem_section_resolved : Bool
  page_size : Int

def phys_addr_of_page (c : MMConfig) (page : Int) : Option Int :=
  if c.mem_map_resolved then
    some (((page - c.mem_map_ptr).fdiv c.page_size) * 4096)
  else if c.mem_section_resolved then
    some (((page - 0xea0000000000).fdiv c.page_size) * 4096)
  else
    none

/- ### radix_tree_lookup_slot (common.py lines 307-360)

A `radix_tree_node` holds its `height` and a total `slots` map (index →
stored unsigned slot value).  Dereferencing `ptr & ~1` is modelled by the
`nodes` map applied to `rnode - 1` (in the indirect branch the low bit of
`rnode` is set, so clearing it is subtracting one).  The do-while loop of
the source evaluates its body at least once, decrements `shift` by 6 and
`height` by 1 each pass, and exits when the decremented height is <= 0;
`radixLoop` mirrors that shape.  An indirect node of height 0 makes the
source raise ValueError (negative shift count on the first `index >>
shift`); within `radix_tree_lookup_slot` that case is also mapped to
`none`, and `find_get_page` below separates it from the source's `None`
returns by testing the raising condition, so that the page-cache readers
propagate the exception instead of zero-filling.  The `slot == -1`
sentinel check of the source can never fire once the loop has run,
because every stored slot is an unsigned value. -/

structure radix_tree_node where
  height : Nat
  slots : Nat → Nat

def radix_tree_is_indirect_ptr (ptr : Nat) : Nat :=
  ptr &&& 1

def radixLoop (node : radix_tree_node) (index : Nat) (height shift : Nat) : Nat :=
  let slot := node.slots ((index >>> shift) &&& 63)
  if _h : height ≤ 1 then slot
  else radixLoop node index (height - 1) (shift - 6)
termination_by height
decreasing_by
  simp_wf
  omega

def radix_tree_lookup_slot (nodes : Nat → radix_tree_node) (rnode index : Nat) :
    Option Nat :=
  if radix_tree_is_indirect_ptr rnode = 0 then
    if index > 0 then none
    else some rnode
  else
    let node := nodes (rnode - 1)
    if node.height = 0 then none
    else some (radixLoop node index node.height ((node.height - 1) * 6))

/- ### find_get_page / get_page_contents / get_file_contents
(common.py lines 368-421)

`find_get_page` is the radix lookup over the inode's page tree, whose
root pointer is `rnode`.  The outer `Option` is the exception channel:
the result is `none` exactly when the source raises ValueError inside
`radix_tree_lookup_slot` (indirect root pointer whose node has height 0,
common.py line 346); otherwise it is `some` of the source's return value
(`some none` for a `None` return, `some (some v)` for a pointer).
`get_page_contents` propagates the exception; on a Python-falsy page
(`None` or a pointer of value 0) it zero-fills, and otherwise reads 4096
bytes of physical memory, abstracted as `readPhys` applied to the page
pointer.  `read_pages` is the accumulation loop of `get_file_contents`
(`data = data + get_page_contents(...)`), aborting at the first raising
page; `get_file_contents` then chops `extra` bytes off the end
(`data[:-extra]`). -/

def find_get_page (nodes : Nat → radix_tree_node) (rnode idx : Nat) :
    Option (Option Nat) :=
  if radix_tree_is_indirect_ptr rnode ≠ 0 ∧ (nodes (rnode - 1)).height = 0 then none
  else some (radix_tree_lookup_slot nodes rnode idx)

def get_page_contents (nodes : Nat → radix_tree_node) (rnode : Nat)
    (readPhys : Nat → List Nat) (idx : Nat) : Option (List Nat) :=
  match find_get_page nodes rnode idx with
  | none => none
  | some (some page) =>
    if page = 0 then some (List.replicate 4096 0) else some (readPhys page)
  | some none => some (List.replicate 4096 0)

def read_pages (nodes : Nat → radix_tree_node) (rnode : Nat)
    (readPhys : Nat → List Nat) : List Nat → Option (List Nat)
  | [] => some []
  | idx :: rest =>
    match get_page_contents nodes rnode readPhys idx with
    | none => none
    | some d =>
      match read_pages nodes rnode readPhys rest with
      | none => none
      | some ds => some (d ++ ds)

def get_file_contents (nodes : Nat → radix_tree_node) (rnode : Nat)
    (readPhys : Nat → List Nat) (file_size : Nat) : Option (List Nat) :=
  let extra0 := file_size % 4096
  let idxs0 := file_size / 4096
  let extra := if extra0 ≠ 0 then 4096 - extra0 else extra0
  let idxs := if extra0 ≠ 0 then idxs0 + 1 else idxs0
  match read_pages nodes rnode readPhys (List.range idxs) with
  | none => none
  | some data => some (if extra ≠ 0 then data.take (data.length - extra) else data)

/- Concrete node map used by witnesses. -/
def witNodes : Nat → radix_tree_node :=
  fun _ => ⟨2, fun i => 100 + i⟩

/- Node map whose every node has height 0: with an indirect root pointer
the source raises ValueError.  Used by the C1 counterexample. -/
def crashNodes : Nat → radix_tree_node :=
  fun _ => ⟨0, fun _ => 0⟩

/- ### get_boot_time (common.py lines 169-193)

The two timespec inputs are passed as four integer fields.  The source
negates the summed seconds and nanoseconds (`secs * -1`), then runs two
sequential while loops: the first subtracts `nsecs_per` and increments
`secs` while `nsecs >= nsecs_per`; the second adds `nsecs_per` and
decrements `secs` while `nsecs < 0`.  Finally it returns
`secs + nsecs / nsecs_per / 100` with Python 2 floor division. -/

def nsecs_per : Int := 1000000000

def norm_carry (secs nsecs : Int) : Int × Int :=
  if _h : nsecs ≥ nsecs_per then norm_carry (secs + 1) (nsecs - nsecs_per)
  else (secs, nsecs)
termination_by nsecs.toNat
decreasing_by
  simp_wf
  simp only [nsecs_per] at *
  omega

def norm_borrow (secs nsecs : Int) : Int × Int :=
  if _h : nsecs < 0 then norm_borrow (secs - 1) (nsecs + nsecs_per)
  else (secs, nsecs)
termination_by (-nsecs).toNat
decreasing_by
  simp_wf
  simp only [nsecs_per] at *
  omega

def get_boot_time (wall_sec wall_nsec sleep_sec sleep_nsec : Int) : Int :=
  let secs := (wall_sec + sleep_sec) * (-1)
  let nsecs := (wall_nsec + sleep_nsec) * (-1)
  let p := norm_carry secs nsecs
  let q := norm_borrow p.1 p.2
  q.1 + ((q.2.fdiv nsecs_per).fdiv 100)

/- Abbreviation for the fully normalized (secs, nsecs) pair that
`get_boot_time` derives internally; used only to state properties. -/
def boot_normalized (wall_sec wall_nsec sleep_sec sleep_nsec : Int) : Int × Int :=
  norm_borrow (norm_carry ((wall_sec + sleep_sec) * (-1)) ((wall_nsec + sleep_nsec) * (-1))).1
    (norm_carry ((wall_sec + sleep_sec) * (-1)) ((wall_nsec + sleep_nsec) * (-1))).2

/- ### PSTree._find_root (pstree.py lines 35-43)

The pid dictionary is an association list mapping a pid to the value of
its `InheritedFromUniqueProcessId` field; the `seen` set is the list of
already-visited pids.  The loop runs while the pid is a key of the map
and has not been seen; `findRootFuel` is the fuel-indexed embedding of
that loop, returning `none` when the fuel runs out and otherwise the
final pid together with the final seen set. -/

def assoc_lookup : List (Nat × Nat) → Nat → Option Nat
  | [], _ => none
  | (k, v) :: rest, key => if k = key then some v else assoc_lookup rest key

def findRootFuel (d : List (Nat × Nat)) : Nat → List Nat → Nat → Option (Nat × List Nat)
  | 0, _, _ => none
  | fuel + 1, seen, pid =>
    match assoc_lookup d pid with
    | none => some (pid, seen)
    | some parent =>
      if pid ∈ seen then some (pid, seen)
      else findRootFuel d fuel (pid :: seen) parent

/- Keys of the pid map not yet visited; the termination measure of the
`_find_root` loop. -/
def keysLeft (d : List (Nat × Nat)) (seen : List Nat) : List Nat :=
  (d.map Prod.fst).filter (fun k => decide (k ∉ seen))

/- ### is_known_address / verify_ops (common.py lines 423-464)

`address_in_module` returns the name of the first module whose
[start, stop) range contains the address.  `is_known_address` is truthy
when the address lies in the kernel text range or in a module with a
non-empty name (Python's boolean test on the returned name string).
`classify_cached` embeds the memoization in verify_ops lines 457-461:
consult `known_addrs`, otherwise compute and store.  `verify_ops` folds
that over the checked operation members, yielding the members whose
non-null address classifies as unknown. -/

def address_in_module : List (String × Nat × Nat) → Nat → Option String
  | [], _ => none
  | (name, start, stop) :: rest, address =>
    if start ≤ address ∧ address < stop then some name
    else address_in_module rest address

def truthy_name : Option String → Bool
  | none => false
  | some s => s != ""

def is_known_address (text etext : Nat) (modules : List (String × Nat × Nat))
    (addr : Nat) : Nat :=
  if (text ≤ addr ∧ addr < etext) ∨ truthy_name (address_in_module modules addr) = true
  then 1 else 0

def classify_cached (cache : List (Nat × Nat)) (compute : Nat → Nat) (addr : Nat) :
    Nat × List (Nat × Nat) :=
  match assoc_lookup cache addr with
  | some known => (known, cache)
  | none => (compute addr, (addr, compute addr) :: cache)

def verify_ops (compute : Nat → Nat) :
    List (String × Nat) → List (Nat × Nat) → List (String × Nat) × List (Nat × Nat)
  | [], cache => ([], cache)
  | (check, addr) :: rest, cache =>
    if addr ≠ 0 then
      let kc := classify_cached cache compute addr
      let r := verify_ops compute rest kc.2
      (if kc.1 = 0 then (check, addr) :: r.1 else r.1, r.2)
    else verify_ops compute rest cache

/- ### do_get_path (common.py lines 215-255) and get_partial_path

Dentries and mounts live at indices of two total maps; a `Dentry` carries
its parent index, the inode number behind `d_inode.i_ino`, whether its
`d_name.name` pointer is valid, the dereferenced name string, and whether
the dentry object itself is valid.  A `Vfsmount` carries the indices the
source compares and follows.  `doGetPathFuel` is the fuel-indexed
embedding of the source's while loop (`none` = the loop has not stopped
within `fuel` iterations); the source itself has no depth bound.  The
appended segment is `dname.strip('/')` (leading and trailing slashes
stripped).  `replaceChars` is Python's `str.replace` over character
lists; `joinSegs` is `'/'.join(p for p in ret_path if p != "")`;
`fixRetVal` is the post-processing of lines 246-254 applied to the joined
path and the entry dentry's inode number; `do_get_path` assembles them,
with `none` for both the source's `return []` cases and a walk that has
not stopped within the given fuel. -/

structure Dentry where
  d_parent : Nat
  d_inode_ino : Nat
  name_valid : Bool
  d_name : String
  valid : Bool

structure Vfsmount where
  mnt_root : Nat
  mnt_parent : Nat
  mnt_mountpoint : Nat

structure VfsWorld where
  dentry : Nat → Dentry
  mnt : Nat → Vfsmount

def stripSlashes (s : String) : String :=
  String.mk (((s.data.dropWhile (fun c => c = '/')).reverse.dropWhile (fun c => c = '/')).reverse)

def doGetPathFuel (w : VfsWorld) (rd rm : Nat) :
    Nat → Nat → Nat → List String → Option (List String)
  | 0, _, _, _ => none
  | fuel + 1, d, m, acc =>
    if (d ≠ rd ∨ m ≠ rm) ∧ (w.dentry d).name_valid = true then
      let acc2 := acc ++ [stripSlashes (w.dentry d).d_name]
      if d = (w.mnt m).mnt_root ∨ d = (w.dentry d).d_parent then
        if (w.mnt m).mnt_parent = m then some acc2
        else doGetPathFuel w rd rm fuel (w.mnt m).mnt_mountpoint (w.mnt m).mnt_parent acc2
      else doGetPathFuel w rd rm fuel (w.dentry d).d_parent m acc2
    else some acc

def replaceChars (p : Char) (ps : List Char) (rep : List Char) : List Char → List Char
  | [] => []
  | c :: rest =>
    if c = p ∧ ps.isPrefixOf rest = true then
      rep ++ replaceChars p ps rep (rest.drop ps.length)
    else c :: replaceChars p ps rep rest
termination_by l => l.length
decreasing_by
  all_goals (simp_wf <;> omega)

def joinSegs (ret_path : List String) : String :=
  String.intercalate "/" (ret_path.filter (fun p => p != ""))

def fixRetVal (ret_val : String) (ino : Nat) : String :=
  if "socket:".data.isPrefixOf ret_val.data = true ∨ "pipe:".data.isPrefixOf ret_val.data = true then
    if ']' ∉ ret_val.data then
      String.mk ret_val.data.dropLast ++ ":[" ++ toString ino ++ "]"
    else
      String.mk (replaceChars '/' [] [] ret_val.data)
  else if ret_val ≠ "inotify" then "/" ++ ret_val
  else ret_val

def do_get_path (w : VfsWorld) (fuel : Nat) (rd rm d m : Nat) : Option String :=
  if (w.dentry rd).valid = false ∨ (w.dentry d).valid = false then none
  else
    match doGetPathFuel w rd rm fuel d m [] with
    | none => none
    | some ret_path =>
      let rev := ret_path.reverse
      if rev = [] then none
      else some (fixRetVal (joinSegs rev) (w.dentry d).d_inode_ino)

/- Cyclic world for the C2 counterexample: dentry 0's parent is 1 and
dentry 1's parent is 0, neither is a mount root or its own parent, all
names are valid, and the root pair (42, 7) is never reached. -/
def cycWorld : VfsWorld where
  dentry := fun i => ⟨1 - i, 7, true, "a", true⟩
  mnt := fun _ => ⟨99, 5, 3⟩

/- Well-founded world for the C2 amended witness: dentry 1's parent is
the self-parent root 0; every mount is its own parent. -/
def witPathWorld : VfsWorld where
  dentry := fun i => if i = 1 then ⟨0, 7, true, "a", true⟩ else ⟨i, 7, true, "r", true⟩
  mnt := fun j => ⟨1000, j, 0⟩

/- ### Helper lemmas -/

theorem radixLoop_same_node (node : radix_tree_node) (index : Nat) :
    ∀ h : Nat, 1 ≤ h → radixLoop node index h ((h - 1) * 6) = node.slots (index &&& 63) := by
  intro h
  induction h with
  | zero => omega
  | succ n ih =>
    intro _
    by_cases hn : n = 0
    · subst hn
      rw [radixLoop]
      simp
    · have hn1 : 1 ≤ n := by omega
      rw [radixLoop]
      have hgt : ¬ (n + 1 ≤ 1) := by omega
      simp only [hgt, dif_neg, not_false_iff, Nat.add_sub_cancel]
      rw [show n * 6 - 6 = (n - 1) * 6 from by omega]
      exact ih hn1

theorem get_page_contents_some (nodes : Nat → radix_tree_node) (rnode : Nat)
    (readPhys : Nat → List Nat) (hread : ∀ p, (readPhys p).length = 4096)
    (hnoraise : ¬ (radix_tree_is_indirect_ptr rnode ≠ 0 ∧ (nodes (rnode - 1)).height = 0))
    (idx : Nat) :
    ∃ b, get_page_contents nodes rnode readPhys idx = some b ∧ b.length = 4096 := by
  unfold get_page_contents find_get_page
  rw [if_neg hnoraise]
  cases radix_tree_lookup_slot nodes rnode idx with
  | none => exact ⟨List.replicate 4096 0, rfl, List.length_replicate 4096 0⟩
  | some page =>
    show ∃ b, (if page = 0 then some (List.replicate 4096 0) else some (readPhys page)) = some b
      ∧ b.length = 4096
    by_cases hp : page = 0
    · rw [if_pos hp]
      exact ⟨List.replicate 4096 0, rfl, List.length_replicate 4096 0⟩
    · rw [if_neg hp]
      exact ⟨readPhys page, rfl, hread page⟩

theorem read_pages_length (nodes : Nat → radix_tree_node) (rnode : Nat)
    (readPhys : Nat → List Nat) (hread : ∀ p, (readPhys p).length = 4096)
    (hnoraise : ¬ (radix_tree_is_indirect_ptr rnode ≠ 0 ∧ (nodes (rnode - 1)).height = 0)) :
    ∀ l : List Nat, ∃ data, read_pages nodes rnode readPhys l = some data ∧
      data.length = 4096 * l.length := by
  intro l
  induction l with
  | nil => exact ⟨[], rfl, rfl⟩
  | cons x xs ih =>
    obtain ⟨b, hb, hblen⟩ := get_page_contents_some nodes rnode readPhys hread hnoraise x
    obtain ⟨ds, hds, hdslen⟩ := ih
    refine ⟨b ++ ds, ?_, ?_⟩
    · rw [read_pages, hb, hds]
    · rw [List.length_append, hblen, hdslen, List.length_cons]
      ring

theorem pairwise_lt_le_getLast :
    ∀ (l : List Nat), List.Pairwise (· < ·) l →
      ∀ last, l.getLast? = some last → ∀ a ∈ l, a ≤ last := by
  intro l
  induction l with
  | nil => intro _ last h; simp at h
  | cons x xs ih =>
    intro hpw last hlast a ha
    cases xs with
    | nil =>
      simp at hlast ha
      omega
    | cons y ys =>
      rw [List.getLast?_cons_cons] at hlast
      have hlmem : last ∈ y :: ys := by
        have := List.getLast?_eq_getLast (y :: ys) (by simp)
        rw [this] at hlast
        have hl : (y :: ys).getLast (by simp) = last := by
          injection hlast
        rw [← hl]
        exact List.getLast_mem _
      rcases List.mem_cons.mp ha with rfl | hmem
      · have hx := (List.pairwise_cons.mp hpw).1 last hlmem
        omega
      · exact ih (List.pairwise_cons.mp hpw).2 last hlast a hmem

/- ### Claim theorems -/

/-- C3 counterexample: with online-CPU bitmap 0b101 (CPUs 0 and 2 online),
`walk_per_cpu_var` yields three pairs, for indices 0, 1 and 2 — it also
yields a pair for the offline CPU 1, refuting the claim that exactly one
pair is produced per online CPU. -/
theorem walk_per_cpu_var_cex :
    online_cpus 5 = [0, 2] ∧
    walk_per_cpu_var 5 (fun _ => 0) 0 = some [(0, 0), (1, 0), (2, 0)] ∧
    [(0, 0), (1, 0), (2, 0)].length = 3 ∧
    ¬ (List.map Prod.fst [(0, 0), (1, 0), (2, 0)] = [0, 2]) := by
  refine ⟨by decide, by decide, by decide, by decide⟩

/-- C3 amended: when at least one CPU is online, `walk_per_cpu_var` yields
exactly one pair for every index from 0 up to the highest online CPU index
inclusive — online or not — in ascending order; every online index is
among them. -/
theorem walk_per_cpu_var_amended (bmap : Nat) (perOffsets : Nat → Nat)
    (cpuVarAddr : Nat) (last : Nat)
    (hlast : (online_cpus bmap).getLast? = some last) :
    walk_per_cpu_var bmap perOffsets cpuVarAddr =
      some ((List.range (last + 1)).map (fun i => (i, cpuVarAddr + perOffsets i))) ∧
    (∀ i ∈ online_cpus bmap, i < last + 1) ∧
    List.Pairwise (· < ·)
      (((List.range (last + 1)).map (fun i => (i, cpuVarAddr + perOffsets i))).map Prod.fst) := by
  refine ⟨?_, ?_, ?_⟩
  · unfold walk_per_cpu_var
    rw [hlast]
  · intro i hi
    have hpw : List.Pairwise (· < ·) (online_cpus bmap) := by
      unfold online_cpus
      exact (List.pairwise_lt_range 8).filter _
    have := pairwise_lt_le_getLast (online_cpus bmap) hpw last hlast i hi
    omega
  · have hmm : (((List.range (last + 1)).map (fun i => (i, cpuVarAddr + perOffsets i))).map Prod.fst)
        = List.range (last + 1) := by
      rw [List.map_map]
      exact List.map_id' (List.range (last + 1))
    rw [hmm]
    exact List.pairwise_lt_range (last + 1)

/-- C3 amended witness: bitmap 0b101 with offset table constantly 7 and
per-CPU symbol address 100 produces the three pairs for indices 0..2. -/
theorem walk_per_cpu_var_amended_witness :
    (online_cpus 5).getLast? = some 2 ∧
    walk_per_cpu_var 5 (fun _ => 7) 100 = some [(0, 107), (1, 107), (2, 107)] := by
  refine ⟨by decide, ?_⟩
  have h := (walk_per_cpu_var_amended 5 (fun _ => 7) 100 2 (by decide)).1
  rw [h]
  decide

/-- C4 counterexample: under the flat model with base 0 and page-struct
size 64, the code maps page pointer 128 to physical offset
`((128 - 0) / 64) << 12 = 8192`; the claimed formula
`((128 - 0) * 64) << 12` gives 33554432 instead — the code divides by the
page-struct size, it does not multiply. -/
theorem phys_addr_of_page_cex :
    phys_addr_of_page ⟨true, 0, false, 64⟩ 128 = some 8192 ∧
    ((128 - 0) * 64) * 4096 ≠ (8192 : Int) := by
  refine ⟨by decide, by decide⟩

/-- C4 amended: `phys_addr_of_page` computes
`((pagePtr - base) / pageStructSize) << 12` with floor division — so the
pointer to the k-th page struct past the base maps to physical offset
`k * 4096` — where base is the pointer read from the flat page-array
symbol under the flat model, and the fixed constant 0xea0000000000 under
the sparse model. -/
theorem phys_addr_of_page_amended (c : MMConfig) (k page : Int)
    (hsz : 0 < c.page_size) :
    (c.mem_map_resolved = true → page = c.mem_map_ptr + k * c.page_size →
      phys_addr_of_page c page = some (k * 4096)) ∧
    (c.mem_map_resolved = false → c.mem_section_resolved = true →
      page = 0xea0000000000 + k * c.page_size →
      phys_addr_of_page c page = some (k * 4096)) := by
  have hk : ∀ b : Int, (b + k * c.page_size - b).fdiv c.page_size = k := by
    intro b
    have hb : b + k * c.page_size - b = k * c.page_size := by ring
    rw [hb]
    exact Int.mul_fdiv_cancel k (by omega)
  constructor
  · intro hflat hpage
    unfold phys_addr_of_page
    rw [hflat, hpage]
    simp only [if_true]
    rw [hk]
  · intro hnoflat hsparse hpage
    unfold phys_addr_of_page
    rw [hnoflat, hsparse, hpage]
    simp only [Bool.false_eq_true, if_false, if_true]
    rw [hk]

/-- C4 amended witness: flat model with base 1000 and struct size 64 maps
page pointer 1192 (= base + 3·64) to 3·4096; sparse model with struct
size 64 maps the pointer two structs past the fixed constant to 2·4096. -/
theorem phys_addr_of_page_amended_witness :
    (0 : Int) < 64 ∧
    phys_addr_of_page ⟨true, 1000, false, 64⟩ 1192 = some (3 * 4096) ∧
    phys_addr_of_page ⟨false, 0, true, 64⟩ (0xea0000000000 + 2 * 64) = some (2 * 4096) := by
  refine ⟨by decide, ?_, ?_⟩
  · exact (phys_addr_of_page_amended ⟨true, 1000, false, 64⟩ 3 1192 (by decide)).1 rfl (by decide)
  · exact (phys_addr_of_page_amended ⟨false, 0, true, 64⟩ 2 (0xea0000000000 + 2 * 64)
      (by decide)).2 rfl rfl rfl

/-- C8: when the radix-tree root's stored pointer is not tagged indirect
(low bit clear), `radix_tree_lookup_slot` returns that stored pointer
itself at index 0 and absent (`None`) at every index greater than 0. -/
theorem radix_tree_lookup_slot_direct (nodes : Nat → radix_tree_node) (rnode : Nat)
    (hdir : rnode &&& 1 = 0) :
    radix_tree_lookup_slot nodes rnode 0 = some rnode ∧
    ∀ i, 0 < i → radix_tree_lookup_slot nodes rnode i = none := by
  constructor
  · unfold radix_tree_lookup_slot radix_tree_is_indirect_ptr
    simp [hdir]
  · intro i hi
    unfold radix_tree_lookup_slot radix_tree_is_indirect_ptr
    simp [hdir, hi]

/-- C8 witness: a direct root pointer of value 4 is returned as-is at
index 0 and yields absent at index 1. -/
theorem radix_tree_lookup_slot_direct_witness :
    4 &&& 1 = 0 ∧
    radix_tree_lookup_slot witNodes 4 0 = some 4 ∧
    radix_tree_lookup_slot witNodes 4 1 = none := by
  refine ⟨by decide, (radix_tree_lookup_slot_direct witNodes 4 (by decide)).1,
    (radix_tree_lookup_slot_direct witNodes 4 (by decide)).2 1 (by decide)⟩

/-- C10: for an indirect root of height h >= 1, every iteration of the
descent loop reads `node.slots` of the same top-level node (the selected
child is never dereferenced), so the returned slot is the top-level
node's `slots[index & 63]`, the read of the final iteration. -/
theorem radix_tree_lookup_slot_indirect_top (nodes : Nat → radix_tree_node)
    (rnode index : Nat) (hind : rnode &&& 1 = 1)
    (hh : 1 ≤ (nodes (rnode - 1)).height) :
    radix_tree_lookup_slot nodes rnode index =
      some ((nodes (rnode - 1)).slots (index &&& 63)) := by
  unfold radix_tree_lookup_slot radix_tree_is_indirect_ptr
  rw [hind]
  have hne : ¬ (nodes (rnode - 1)).height = 0 := by omega
  simp only [if_neg hne, one_ne_zero, if_false]
  rw [radixLoop_same_node (nodes (rnode - 1)) index (nodes (rnode - 1)).height hh]

/-- C10 witness: with an indirect root pointer of value 1 dereferencing
to a node of height 2 whose slots map i to 100 + i, looking up index 5
returns slot value 105 = slots[5 & 63]. -/
theorem radix_tree_lookup_slot_indirect_top_witness :
    1 &&& 1 = 1 ∧ 1 ≤ (witNodes (1 - 1)).height ∧
    radix_tree_lookup_slot witNodes 1 5 = some 105 := by
  refine ⟨by decide, by decide, ?_⟩
  exact radix_tree_lookup_slot_indirect_top witNodes 1 5 (by decide) (by decide)

/-- C1 counterexample: on an inode whose page-tree root is an indirect
pointer (value 1) to a node of height 0, the source raises ValueError
(negative shift count, common.py line 346) and propagates it, so for
declared size 1 `get_file_contents` produces no byte sequence at all —
refuting the claim that it returns a length-S byte sequence for every
inode. -/
theorem get_file_contents_raise_cex :
    radix_tree_is_indirect_ptr 1 ≠ 0 ∧ (crashNodes (1 - 1)).height = 0 ∧
    get_file_contents crashNodes 1 (fun _ => List.replicate 4096 0) 1 = none := by
  refine ⟨by decide, by decide, by decide⟩

/-- C1 amended: for every inode with declared size S — including S = 0
and S not a multiple of 4096 — whose page-tree root is not a corrupted
indirect pointer to a height-0 node (in that case the code raises
ValueError instead of returning), `get_file_contents` returns a byte
sequence of length exactly S, each page absent from the page cache
contributing 4096 zero bytes before the final truncation. -/
theorem get_file_contents_exact_length (nodes : Nat → radix_tree_node) (rnode : Nat)
    (readPhys : Nat → List Nat) (file_size : Nat)
    (hread : ∀ p, (readPhys p).length = 4096)
    (hnoraise : ¬ (radix_tree_is_indirect_ptr rnode ≠ 0 ∧ (nodes (rnode - 1)).height = 0)) :
    (∃ data, get_file_contents nodes rnode readPhys file_size = some data ∧
      data.length = file_size) ∧
    (∀ idx, radix_tree_lookup_slot nodes rnode idx = none →
      get_page_contents nodes rnode readPhys idx = some (List.replicate 4096 0)) := by
  constructor
  · have hmod := Nat.div_add_mod file_size 4096
    by_cases he : file_size % 4096 = 0
    · obtain ⟨data, hdata, hlen⟩ := read_pages_length nodes rnode readPhys hread hnoraise
        (List.range (file_size / 4096))
      have hcond : ¬ (file_size % 4096 ≠ 0) := fun hc => hc he
      refine ⟨data, ?_, ?_⟩
      · unfold get_file_contents
        simp only [if_neg hcond]
        rw [hdata]
      · rw [hlen, List.length_range]
        omega
    · obtain ⟨data, hdata, hlen⟩ := read_pages_length nodes rnode readPhys hread hnoraise
        (List.range (file_size / 4096 + 1))
      have h1 : file_size % 4096 < 4096 := Nat.mod_lt _ (by omega)
      have hsub : 4096 - file_size % 4096 ≠ 0 := by omega
      refine ⟨data.take (data.length - (4096 - file_size % 4096)), ?_, ?_⟩
      · unfold get_file_contents
        simp only [if_pos he, if_pos hsub]
        rw [hdata]
      · rw [List.length_take, hlen, List.length_range]
        omega
  · intro idx hnone
    unfold get_page_contents find_get_page
    rw [if_neg hnoraise, hnone]

/-- C1 amended witness: a file of declared size 5000 (not a multiple of
4096) whose page-tree root is the direct pointer 4 (not raising)
reconstructs to exactly 5000 bytes. -/
theorem get_file_contents_exact_length_witness :
    (¬ (radix_tree_is_indirect_ptr 4 ≠ 0 ∧ (witNodes (4 - 1)).height = 0)) ∧
    ∃ data, get_file_contents witNodes 4 (fun _ => List.replicate 4096 0) 5000 = some data ∧
      data.length = 5000 := by
  refine ⟨by decide, ?_⟩
  exact (get_file_contents_exact_length witNodes 4 (fun _ => List.replicate 4096 0) 5000
    (fun p => List.length_replicate 4096 0) (by decide)).1

/- ### Boot-time lemmas -/

theorem norm_carry_props (s n : Int) :
    (norm_carry s n).1 * nsecs_per + (norm_carry s n).2 = s * nsecs_per + n ∧
    (norm_carry s n).2 < nsecs_per := by
  induction s, n using norm_carry.induct with
  | case1 s n h ih =>
    rw [norm_carry, dif_pos h]
    refine ⟨ih.1.trans (by ring), ih.2⟩
  | case2 s n h =>
    rw [norm_carry, dif_neg h]
    exact ⟨rfl, by omega⟩

theorem norm_borrow_props (s n : Int) :
    (norm_borrow s n).1 * nsecs_per + (norm_borrow s n).2 = s * nsecs_per + n ∧
    0 ≤ (norm_borrow s n).2 ∧
    (n < nsecs_per → (norm_borrow s n).2 < nsecs_per) := by
  induction s, n using norm_borrow.induct with
  | case1 s n h ih =>
    rw [norm_borrow, dif_pos h]
    have hper : (0 : Int) < nsecs_per := by simp only [nsecs_per]; omega
    refine ⟨ih.1.trans (by ring), ih.2.1, fun _ => ih.2.2 (by omega)⟩
  | case2 s n h =>
    rw [norm_borrow, dif_neg h]
    exact ⟨rfl, by omega, fun hlt => hlt⟩

/- ### _find_root lemmas -/

theorem filter_length_mono (p q : Nat → Bool) (himp : ∀ k, p k = true → q k = true) :
    ∀ l : List Nat, (l.filter p).length ≤ (l.filter q).length := by
  intro l
  induction l with
  | nil => simp
  | cons x xs ih =>
    rw [List.filter_cons, List.filter_cons]
    by_cases hp : p x = true
    · rw [if_pos hp, if_pos (himp x hp)]
      simpa using ih
    · rw [if_neg hp]
      by_cases hq : q x = true
      · rw [if_pos hq]
        refine le_trans ih ?_
        simp
      · rw [if_neg hq]
        exact ih

theorem filter_length_strict (p q : Nat → Bool) (himp : ∀ k, p k = true → q k = true) :
    ∀ (l : List Nat) (a : Nat), a ∈ l → p a = false → q a = true →
      (l.filter p).length < (l.filter q).length := by
  intro l
  induction l with
  | nil => intro a ha _ _; simp at ha
  | cons x xs ih =>
    intro a ha hpa hqa
    rw [List.filter_cons, List.filter_cons]
    rcases List.mem_cons.mp ha with rfl | hmem
    · rw [if_neg (by simp [hpa]), if_pos hqa]
      have hmono := filter_length_mono p q himp xs
      simp only [List.length_cons]
      omega
    · by_cases hp : p x = true
      · rw [if_pos hp, if_pos (himp x hp)]
        have := ih a hmem hpa hqa
        simp only [List.length_cons]
        omega
      · rw [if_neg hp]
        by_cases hq : q x = true
        · rw [if_pos hq]
          have := ih a hmem hpa hqa
          simp only [List.length_cons]
          omega
        · rw [if_neg hq]
          exact ih a hmem hpa hqa

theorem assoc_lookup_mem_keys :
    ∀ (d : List (Nat × Nat)) (k v : Nat), assoc_lookup d k = some v → k ∈ d.map Prod.fst := by
  intro d
  induction d with
  | nil => intro k v h; simp [assoc_lookup] at h
  | cons p rest ih =>
    intro k v h
    rw [show p = (p.1, p.2) from rfl, assoc_lookup] at h
    by_cases hk : p.1 = k
    · simp [List.map_cons, hk]
    · rw [if_neg hk] at h
      exact List.mem_cons_of_mem _ (ih k v h)

theorem findRootFuel_spec :
    ∀ (fuel : Nat) (d : List (Nat × Nat)) (seen : List Nat) (pid : Nat),
      (keysLeft d seen).length < fuel →
      ∃ r s, findRootFuel d fuel seen pid = some (r, s) ∧
        (assoc_lookup d r = none ∨ r ∈ s) := by
  intro fuel
  induction fuel with
  | zero => intro d seen pid h; omega
  | succ n ih =>
    intro d seen pid h
    cases hl : assoc_lookup d pid with
    | none => exact ⟨pid, seen, by rw [findRootFuel, hl], Or.inl hl⟩
    | some parent =>
      by_cases hs : pid ∈ seen
      · exact ⟨pid, seen, by rw [findRootFuel, hl]; simp [hs], Or.inr hs⟩
      · have hmem : pid ∈ d.map Prod.fst := assoc_lookup_mem_keys d pid parent hl
        have himp : ∀ k, decide (k ∉ pid :: seen) = true → decide (k ∉ seen) = true := by
          intro k hk
          simp only [decide_eq_true_eq] at hk ⊢
          exact fun hm => hk (List.mem_cons_of_mem pid hm)
        have hdec := filter_length_strict (fun k => decide (k ∉ pid :: seen))
          (fun k => decide (k ∉ seen)) himp (d.map Prod.fst) pid hmem
          (by simp) (by simp [hs])
        have hlt : (keysLeft d (pid :: seen)).length < n := by
          unfold keysLeft at *
          omega
        obtain ⟨r, s, heq, hstop⟩ := ih d (pid :: seen) parent hlt
        exact ⟨r, s, by rw [findRootFuel, hl]; simp [hs]; exact heq, hstop⟩

/- ### Claim theorems, continued -/

/-- C6: `get_boot_time` computes secs = -(wall.tv_sec + sleep.tv_sec) and
nsecs = -(wall.tv_nsec + sleep.tv_nsec), normalizes nsecs into
[0, 1e9) by borrowing/carrying whole seconds into secs (the total
secs*1e9 + nsecs is preserved), returns the normalized secs, and on
wall = (sec = -100, nsec = 0), sleep = (0, 0) returns 100 seconds. -/
theorem get_boot_time_spec (ws wn ts tn : Int) :
    (boot_normalized ws wn ts tn).1 * nsecs_per + (boot_normalized ws wn ts tn).2
        = (-(ws + ts)) * nsecs_per + (-(wn + tn)) ∧
    0 ≤ (boot_normalized ws wn ts tn).2 ∧
    (boot_normalized ws wn ts tn).2 < nsecs_per ∧
    get_boot_time ws wn ts tn = (boot_normalized ws wn ts tn).1 ∧
    get_boot_time (-100) 0 0 0 = 100 := by
  have hc := norm_carry_props ((ws + ts) * (-1)) ((wn + tn) * (-1))
  have hb := norm_borrow_props (norm_carry ((ws + ts) * (-1)) ((wn + tn) * (-1))).1
    (norm_carry ((ws + ts) * (-1)) ((wn + tn) * (-1))).2
  have hsum : (boot_normalized ws wn ts tn).1 * nsecs_per + (boot_normalized ws wn ts tn).2
      = (-(ws + ts)) * nsecs_per + (-(wn + tn)) := by
    unfold boot_normalized
    rw [hb.1, hc.1]
    ring
  have hnn : 0 ≤ (boot_normalized ws wn ts tn).2 := hb.2.1
  have hlt : (boot_normalized ws wn ts tn).2 < nsecs_per := hb.2.2 hc.2
  refine ⟨hsum, hnn, hlt, ?_, ?_⟩
  · show (boot_normalized ws wn ts tn).1 +
      (((boot_normalized ws wn ts tn).2.fdiv nsecs_per).fdiv 100) =
      (boot_normalized ws wn ts tn).1
    have hz : (boot_normalized ws wn ts tn).2.fdiv nsecs_per = 0 := by
      have hpos : (0 : Int) < nsecs_per := by simp only [nsecs_per]; omega
      rw [Int.fdiv_eq_ediv _ (by omega)]
      exact Int.ediv_eq_zero_of_lt hnn hlt
    rw [hz]
    simp
  · have h1 : norm_carry (((-100 : Int) + 0) * (-1)) (((0 : Int) + 0) * (-1)) = (100, 0) := by
      rw [norm_carry]
      norm_num [nsecs_per]
    show (norm_borrow (norm_carry (((-100 : Int) + 0) * (-1)) (((0 : Int) + 0) * (-1))).1
        (norm_carry (((-100 : Int) + 0) * (-1)) (((0 : Int) + 0) * (-1))).2).1 +
      (((norm_borrow (norm_carry (((-100 : Int) + 0) * (-1)) (((0 : Int) + 0) * (-1))).1
        (norm_carry (((-100 : Int) + 0) * (-1)) (((0 : Int) + 0) * (-1))).2).2.fdiv
          nsecs_per).fdiv 100) = 100
    rw [h1]
    have h2 : norm_borrow (100 : Int) ((0 : Int)) = (100, 0) := by
      rw [norm_borrow]
      norm_num
    rw [show ((100 : Int), (0 : Int)).1 = (100 : Int) from rfl,
      show ((100 : Int), (0 : Int)).2 = (0 : Int) from rfl, h2]
    simp [Int.zero_fdiv]

/-- C7: for every finite pid-to-parent map — cyclic or self-looping
included — the `_find_root` walk terminates within |map| + 1 iterations,
stopping at a pid that is absent from the map or already visited. -/
theorem find_root_terminates (d : List (Nat × Nat)) (pid : Nat) :
    ∃ r s, findRootFuel d (d.length + 1) [] pid = some (r, s) ∧
      (assoc_lookup d r = none ∨ r ∈ s) := by
  apply findRootFuel_spec
  have h1 : (keysLeft d []).length ≤ (d.map Prod.fst).length :=
    List.length_filter_le _ _
  have h2 : (d.map Prod.fst).length = d.length := List.length_map d Prod.fst
  omega

/-- C9: address classification through the known_addrs cache of
`verify_ops` is idempotent and memoized: after one classification of an
address via `is_known_address`, the cache holds its result, and a second
classification of the same address returns the same result and the same
cache without recomputing — the result of the second call does not
depend on the classifying function at all. -/
theorem classify_cached_memoized (cache : List (Nat × Nat)) (text etext : Nat)
    (modules : List (String × Nat × Nat)) (addr : Nat) :
    assoc_lookup (classify_cached cache (is_known_address text etext modules) addr).2 addr
      = some (classify_cached cache (is_known_address text etext modules) addr).1 ∧
    ∀ g : Nat → Nat,
      classify_cached (classify_cached cache (is_known_address text etext modules) addr).2 g addr
        = classify_cached cache (is_known_address text etext modules) addr := by
  cases hl : assoc_lookup cache addr with
  | some known =>
    constructor
    · simp [classify_cached, hl]
    · intro g
      simp [classify_cached, hl]
  | none =>
    constructor
    · simp [classify_cached, hl, assoc_lookup]
    · intro g
      simp [classify_cached, hl, assoc_lookup]

/- ### Path-walk lemmas -/

theorem cyc_loop_never_stops :
    ∀ (n : Nat) (acc : List String) (d : Nat), d = 0 ∨ d = 1 →
      doGetPathFuel cycWorld 42 7 n d 0 acc = none := by
  intro n
  induction n with
  | zero => intro acc d _; rfl
  | succ k ih =>
    intro acc d hd
    have hda : (cycWorld.dentry d).d_parent = 1 - d := rfl
    have hguard : (d ≠ 42 ∨ (0 : Nat) ≠ 7) ∧ (cycWorld.dentry d).name_valid = true :=
      ⟨Or.inr (by omega), rfl⟩
    have hroot : ¬ (d = (cycWorld.mnt 0).mnt_root ∨ d = (cycWorld.dentry d).d_parent) := by
      rw [hda]
      rcases hd with rfl | rfl
      · intro hc
        rcases hc with hc | hc <;> simp [cycWorld] at hc
      · intro hc
        rcases hc with hc | hc <;> simp [cycWorld] at hc
    rw [doGetPathFuel, if_pos hguard, if_neg hroot, hda]
    apply ih
    omega

theorem nil_isPrefixOf_true (l : List Char) : ([] : List Char).isPrefixOf l = true := by
  cases l <;> rfl

theorem replaceChars_slash_eq_filter :
    ∀ l : List Char, replaceChars '/' [] [] l = l.filter (fun c => c != '/') := by
  intro l
  induction l with
  | nil =>
    rw [replaceChars]
    rfl
  | cons c rest ih =>
    rw [replaceChars, List.filter_cons]
    by_cases hc : c = '/'
    · rw [if_pos ⟨hc, nil_isPrefixOf_true rest⟩]
      have hdrop : rest.drop ([] : List Char).length = rest := rfl
      rw [hdrop, if_neg (by simp [hc])]
      simpa using ih
    · rw [if_neg (by intro hand; exact hc hand.1), if_pos (by simp [hc])]
      rw [ih]

/- ### Claim theorems for the path walk -/

/-- C2 counterexample: in `cycWorld` the dentry chain 0 -> 1 -> 0 cycles
without reaching the root pair (42, 7), a mount root, or a self-parent
dentry, and `do_get_path`'s loop never stops, for any amount of fuel —
the source has no maximum depth bound. -/
theorem do_get_path_cycle_cex :
    ¬ ∃ (n : Nat) (acc : List String),
        doGetPathFuel cycWorld 42 7 n 0 0 [] = some acc := by
  rintro ⟨n, acc, h⟩
  rw [cyc_loop_never_stops n [] 0 (Or.inl rfl)] at h
  exact Option.noConfusion h

/-- C2 amended: the path walk terminates when it reaches the root pair,
an invalid name, or a structural root inside the global root mount; the
code has no maximum depth bound, so termination on arbitrary input holds
only for well-founded chains — here expressed by rank functions that
strictly decrease along dentry-parent and mount-parent links — and a
cyclic chain that never reaches a root makes the walk loop forever. -/
theorem do_get_path_terminates_of_ranked (w : VfsWorld) (rd rm : Nat)
    (rank mrank : Nat → Nat) (R : Nat)
    (hrank : ∀ i, (w.dentry i).d_parent ≠ i → rank ((w.dentry i).d_parent) < rank i)
    (hmrank : ∀ j, (w.mnt j).mnt_parent ≠ j → mrank ((w.mnt j).mnt_parent) < mrank j)
    (hR : ∀ i, rank i ≤ R) :
    ∀ (fuel d m : Nat) (acc : List String), mrank m * (R + 1) + rank d < fuel →
      (doGetPathFuel w rd rm fuel d m acc).isSome = true := by
  intro fuel
  induction fuel with
  | zero => intro d m acc h; omega
  | succ n ih =>
    intro d m acc h
    rw [doGetPathFuel]
    by_cases hguard : (d ≠ rd ∨ m ≠ rm) ∧ (w.dentry d).name_valid = true
    · rw [if_pos hguard]
      by_cases hroot : d = (w.mnt m).mnt_root ∨ d = (w.dentry d).d_parent
      · rw [if_pos hroot]
        by_cases hglob : (w.mnt m).mnt_parent = m
        · rw [if_pos hglob]
          rfl
        · rw [if_neg hglob]
          apply ih
          have h1 : mrank ((w.mnt m).mnt_parent) < mrank m := hmrank m hglob
          have h2 : rank ((w.mnt m).mnt_mountpoint) ≤ R := hR _
          obtain ⟨a, ha⟩ : ∃ a, mrank m = a + 1 := ⟨mrank m - 1, by omega⟩
          have h3 : mrank ((w.mnt m).mnt_parent) * (R + 1) ≤ a * (R + 1) :=
            Nat.mul_le_mul_right _ (by omega)
          have hexp : (a + 1) * (R + 1) = a * (R + 1) + (R + 1) := by ring
          rw [ha] at h
          rw [hexp] at h
          omega
      · rw [if_neg hroot]
        apply ih
        have hne : (w.dentry d).d_parent ≠ d := fun hc => hroot (Or.inr hc.symm)
        have h1 : rank ((w.dentry d).d_parent) < rank d := hrank d hne
        omega
    · rw [if_neg hguard]
      rfl

/-- C2 amended witness: in `witPathWorld`, whose chains are well-founded
(dentry 1's parent is the self-parent root 0, every mount is the global
root), the walk starting at dentry 1, mount 0 stops within 2 steps. -/
theorem do_get_path_terminates_of_ranked_witness :
    (doGetPathFuel witPathWorld 99 98 2 1 0 []).isSome = true := by
  apply do_get_path_terminates_of_ranked witPathWorld 99 98
    (fun i => if i = 1 then 1 else 0) (fun _ => 0) 1
  · intro i hi
    by_cases h1 : i = 1
    · subst h1
      have hp : (witPathWorld.dentry 1).d_parent = 0 := rfl
      rw [hp]
      norm_num
    · exfalso
      apply hi
      show (witPathWorld.dentry i).d_parent = i
      simp [witPathWorld, h1]
  · intro j hj
    exfalso
    apply hj
    rfl
  · intro i
    show (if i = 1 then 1 else 0) ≤ 1
    split <;> omega
  · norm_num

/-- C5 counterexample: for the reconstructed path "socket:ab" (no closing
bracket) and inode 7, the code produces "socket:a:[7]" — it drops the
final character before appending ":[7]" — not the plain append
"socket:ab:[7]" the claim states. -/
theorem fix_ret_val_cex :
    fixRetVal "socket:ab" 7 = "socket:a:[7]" ∧
    ¬ ("socket:ab" ++ ":[7]" = "socket:a:[7]") := by
  constructor
  · decide
  · decide

/-- C5 amended: for a non-empty reconstructed path beginning with
"socket:" or "pipe:" and containing no "]", the final character is
dropped and ":[inode-number]" is appended; in the already-bracketed case
every embedded slash is stripped; the literal path "inotify" is returned
unchanged; every other path gains a leading "/". -/
theorem fix_ret_val_amended (s : String) (ino : Nat) :
    (("socket:".data.isPrefixOf s.data = true ∨ "pipe:".data.isPrefixOf s.data = true) →
      (']' ∉ s.data →
        fixRetVal s ino = String.mk s.data.dropLast ++ ":[" ++ toString ino ++ "]") ∧
      (']' ∈ s.data →
        (fixRetVal s ino).data = s.data.filter (fun c => c != '/'))) ∧
    (s = "inotify" → fixRetVal s ino = "inotify") ∧
    (¬ ("socket:".data.isPrefixOf s.data = true ∨ "pipe:".data.isPrefixOf s.data = true) →
      s ≠ "inotify" → fixRetVal s ino = "/" ++ s) := by
  refine ⟨fun hpre => ⟨fun hnb => ?_, fun hmem => ?_⟩, fun hino => ?_, fun hnp hni => ?_⟩
  · unfold fixRetVal
    rw [if_pos hpre, if_pos hnb]
  · unfold fixRetVal
    rw [if_pos hpre, if_neg (fun hn => hn hmem)]
    show replaceChars '/' [] [] s.data = _
    exact replaceChars_slash_eq_filter s.data
  · subst hino
    rfl
  · unfold fixRetVal
    rw [if_neg hnp, if_pos hni]

/-- C5 amended witness: "pipe:x" with inode 3 becomes "pipe::[3]";
"socket:[55]/q" keeps its brackets and loses the slash; "inotify" is
unchanged; "usr" becomes "/usr". -/
theorem fix_ret_val_amended_witness :
    fixRetVal "pipe:x" 3 = "pipe::[3]" ∧
    fixRetVal "socket:[55]/q" 3 = "socket:[55]q" ∧
    fixRetVal "inotify" 3 = "inotify" ∧
    fixRetVal "usr" 3 = "/usr" := by
  refine ⟨?_, ?_, ?_, ?_⟩
  · have h := ((fix_ret_val_amended "pipe:x" 3).1 (by decide)).1 (by decide)
    rw [h]
    decide
  · have h := ((fix_ret_val_amended "socket:[55]/q" 3).1 (by decide)).2 (by decide)
    apply String.ext
    rw [h]
    decide
  · exact (fix_ret_val_amended "inotify" 3).2.1 rfl
  · have h := (fix_ret_val_amended "usr" 3).2.2 (by decide) (by decide)
    rw [h]
    decide
